import Mathlib

/-!
# Verification of the font-splitter character pipeline

Shallow embedding of the pure algorithmic core of `font_splitter.py`:
the unicode-range text parser, the order merger, the corpus frequency
builder, the available-order filter, the chunk partitioner and the
range compressor.

Modelling conventions:
* A Python string is modelled as a `List Nat` of Unicode codepoints.
  (Python strings may hold lone surrogates, which Lean `Char` cannot
  represent, and CPython `chr` accepts every codepoint `0 ≤ cp ≤ 0x10FFFF`,
  surrogates included.)
* Python `int` arguments that the code compares against `0` are modelled
  as `Int`; list indices and codepoints are `Nat`.
* A Python function that raises is modelled with `Except String`.
* Python `set` objects used by the source only ever mirror the membership
  of an accumulator list (`seen = set(out)` is a loop invariant in every
  function that uses one), so set membership is modelled as list membership.
-/

/-- Codepoints of an ASCII string literal, for writing concrete inputs. -/
def pyStr (s : String) : List Nat := s.data.map Char.toNat

/-! ## Chunk partitioner: `split_characters_into_chunks` -/

/-- One step of the slicing loop of `split_characters_into_chunks`:
state is `(chunks, idx)`; `chars[idx:idx+size]` is `(chars.drop idx).take size`. -/
def sliceChunksStep {α : Type} (chars : List α) (acc : List (List α) × Nat) (size : Nat) :
    List (List α) × Nat :=
  if size = 0 then (acc.1 ++ [[]], acc.2)
  else (acc.1 ++ [(chars.drop acc.2).take size], acc.2 + size)

/-- The chunk sizes produced by the loop `for i in range(n): size = base + (1 if i < rem else 0)`. -/
def chunkSizes (n base rem : Nat) : List Nat :=
  (List.range n).map (fun i => base + if i < rem then 1 else 0)

/-- The trailing `while chunks and not chunks[-1]: chunks.pop()` loop. -/
def dropTrailingEmpties {α : Type} (chunks : List (List α)) : List (List α) :=
  (chunks.reverse.dropWhile List.isEmpty).reverse

/-- `split_characters_into_chunks(chars, num_chunks)` from `font_splitter.py`:
raises `ValueError` when `num_chunks <= 0`; returns singleton chunks when
`num_chunks >= len(chars)`; otherwise slices `chars` into `num_chunks`
contiguous pieces of sizes `base + 1` (first `rem`) and `base`, then trims
trailing empty chunks. -/
def split_characters_into_chunks {α : Type} (chars : List α) (num_chunks : Int) :
    Except String (List (List α)) :=
  if num_chunks ≤ 0 then Except.error "块数量必须大于0"
  else if (chars.length : Int) ≤ num_chunks then Except.ok (chars.map fun c => [c])
  else
    Except.ok (dropTrailingEmpties
      ((chunkSizes num_chunks.toNat (chars.length / num_chunks.toNat)
          (chars.length % num_chunks.toNat)).foldl (sliceChunksStep chars) ([], 0)).1)

/-- Reference slicing: cut successive prefixes of the given sizes. -/
def splitBySizes {α : Type} : List α → List Nat → List (List α)
  | _, [] => []
  | chars, s :: ss => chars.take s :: splitBySizes (chars.drop s) ss

theorem sliceChunks_foldl {α : Type} (chars : List α) :
    ∀ (sizes : List Nat) (acc : List (List α)) (idx : Nat),
      (∀ s ∈ sizes, 0 < s) →
      sizes.foldl (sliceChunksStep chars) (acc, idx) =
        (acc ++ splitBySizes (chars.drop idx) sizes, idx + sizes.sum) := by
  intro sizes
  induction sizes with
  | nil => intro acc idx _; simp [splitBySizes]
  | cons s ss ih =>
    intro acc idx hpos
    have hs : 0 < s := hpos s (by simp)
    have hstep : sliceChunksStep chars (acc, idx) s =
        (acc ++ [(chars.drop idx).take s], idx + s) := by
      simp [sliceChunksStep, Nat.pos_iff_ne_zero.mp hs]
    rw [List.foldl_cons, hstep, ih _ _ (fun x hx => hpos x (by simp [hx]))]
    have hdrop : (chars.drop idx).drop s = chars.drop (idx + s) := by
      rw [List.drop_drop]
      try rw [Nat.add_comm idx s]
    rw [Prod.ext_iff]
    constructor
    · simp [splitBySizes, hdrop, List.append_assoc]
    · simp only [splitBySizes, List.sum_cons]
      omega

theorem splitBySizes_flatten {α : Type} :
    ∀ (sizes : List Nat) (chars : List α),
      (splitBySizes chars sizes).flatten = chars.take sizes.sum := by
  intro sizes
  induction sizes with
  | nil => intro chars; simp [splitBySizes]
  | cons s ss ih =>
    intro chars
    simp only [splitBySizes, List.flatten_cons, ih, List.sum_cons]
    rw [List.take_add]

theorem splitBySizes_map_length {α : Type} :
    ∀ (sizes : List Nat) (chars : List α),
      sizes.sum ≤ chars.length →
      (splitBySizes chars sizes).map List.length = sizes := by
  intro sizes
  induction sizes with
  | nil => intro chars _; simp [splitBySizes]
  | cons s ss ih =>
    intro chars hle
    simp only [List.sum_cons] at hle
    have hs : s ≤ chars.length := by omega
    have hss : ss.sum ≤ (chars.drop s).length := by
      simp [List.length_drop]; omega
    simp [splitBySizes, List.length_take, Nat.min_eq_left hs, ih _ hss]

theorem splitBySizes_length {α : Type} :
    ∀ (sizes : List Nat) (chars : List α),
      (splitBySizes chars sizes).length = sizes.length := by
  intro sizes
  induction sizes with
  | nil => intro chars; simp [splitBySizes]
  | cons s ss ih => intro chars; simp [splitBySizes, ih]

theorem chunkSizes_sum (n base rem : Nat) :
    (chunkSizes n base rem).sum = n * base + min rem n := by
  induction n with
  | zero => simp [chunkSizes]
  | succ n ih =>
    have : chunkSizes (n + 1) base rem =
        chunkSizes n base rem ++ [base + if n < rem then 1 else 0] := by
      simp [chunkSizes, List.range_succ]
    rw [this, List.sum_append, ih]
    simp only [List.sum_cons, List.sum_nil]
    have hmul : (n + 1) * base = n * base + base := by ring
    by_cases h : n < rem
    · rw [if_pos h]; omega
    · rw [if_neg h]; omega

theorem chunkSizes_length (n base rem : Nat) :
    (chunkSizes n base rem).length = n := by
  simp [chunkSizes]

theorem chunkSizes_getElem (n base rem : Nat) (i : Nat) (h : i < (chunkSizes n base rem).length) :
    (chunkSizes n base rem).get ⟨i, h⟩ = base + if i < rem then 1 else 0 := by
  simp [chunkSizes, List.get_eq_getElem]

theorem map_length_get {α : Type} {l : List (List α)} {sizes : List Nat}
    (hml : l.map List.length = sizes) (i : Nat) (h : i < l.length)
    (h2 : i < sizes.length) :
    (l.get ⟨i, h⟩).length = sizes.get ⟨i, h2⟩ := by
  subst hml
  simp [List.get_eq_getElem, List.getElem_map]

theorem chunkSizes_pos (n base rem : Nat) (hbase : 0 < base) :
    ∀ s ∈ chunkSizes n base rem, 0 < s := by
  intro s hs
  simp only [chunkSizes, List.mem_map] at hs
  obtain ⟨i, _, rfl⟩ := hs
  omega

theorem dropTrailingEmpties_of_ne_nil {α : Type} (chunks : List (List α))
    (h : ∀ c ∈ chunks, c ≠ []) : dropTrailingEmpties chunks = chunks := by
  unfold dropTrailingEmpties
  have : chunks.reverse.dropWhile List.isEmpty = chunks.reverse := by
    cases hrev : chunks.reverse with
    | nil => simp
    | cons a t =>
      have ha : a ∈ chunks := by
        have : a ∈ chunks.reverse := by rw [hrev]; simp
        simpa using this
      have : a.isEmpty = false := by
        cases a with
        | nil => exact absurd rfl (h [] ha)
        | cons x xs => simp
      simp [List.dropWhile_cons, this]
  rw [this, List.reverse_reverse]

/-- **C1.** For `1 ≤ n < len(chars)`, `split_characters_into_chunks(chars, n)`
returns exactly `n` contiguous chunks whose in-order concatenation is `chars`;
with `base = len(chars) // n` and `remainder = len(chars) % n`, the first
`remainder` chunks have `base + 1` characters and the remaining chunks have
`base` characters. -/
theorem split_characters_into_chunks_balanced {α : Type} (chars : List α) (n : Int)
    (h1 : 1 ≤ n) (h2 : n < (chars.length : Int)) :
    ∃ chunks : List (List α),
      split_characters_into_chunks chars n = Except.ok chunks ∧
      chunks.flatten = chars ∧
      chunks.length = n.toNat ∧
      ∀ i (h : i < chunks.length),
        (chunks.get ⟨i, h⟩).length =
          chars.length / n.toNat + if i < chars.length % n.toNat then 1 else 0 := by
  have hn0 : ¬ n ≤ 0 := by omega
  have hlen : ¬ ((chars.length : Int) ≤ n) := by omega
  have hn'pos : 0 < n.toNat := by omega
  have hn'lt : n.toNat < chars.length := by omega
  set n' := n.toNat with hn'
  set base := chars.length / n' with hbase_def
  set rem := chars.length % n' with hrem_def
  have hbase : 0 < base := (Nat.one_le_div_iff hn'pos).2 (le_of_lt hn'lt)
  have hremlt : rem < n' := Nat.mod_lt _ hn'pos
  have hsum : (chunkSizes n' base rem).sum = chars.length := by
    rw [chunkSizes_sum, Nat.min_eq_left (le_of_lt hremlt)]
    have hdm := Nat.div_add_mod chars.length n'
    rw [← hbase_def, ← hrem_def] at hdm
    omega
  have hpos := chunkSizes_pos n' base rem hbase
  have hfold := sliceChunks_foldl chars (chunkSizes n' base rem) [] 0 hpos
  have hchunks_eq : ((chunkSizes n' base rem).foldl (sliceChunksStep chars) ([], 0)).1 =
      splitBySizes chars (chunkSizes n' base rem) := by
    rw [hfold]; simp
  have hml : (splitBySizes chars (chunkSizes n' base rem)).map List.length =
      chunkSizes n' base rem :=
    splitBySizes_map_length _ _ (le_of_eq hsum)
  have hne : ∀ c ∈ splitBySizes chars (chunkSizes n' base rem), c ≠ [] := by
    intro c hc hcnil
    have : c.length ∈ chunkSizes n' base rem := by
      rw [← hml]; exact List.mem_map_of_mem List.length hc
    have := hpos _ this
    rw [hcnil] at this
    simp at this
  refine ⟨splitBySizes chars (chunkSizes n' base rem), ?_, ?_, ?_, ?_⟩
  · unfold split_characters_into_chunks
    rw [if_neg hn0, if_neg hlen, hchunks_eq, dropTrailingEmpties_of_ne_nil _ hne]
  · rw [splitBySizes_flatten, hsum, List.take_length]
  · rw [splitBySizes_length, chunkSizes_length]
  · intro i h
    have hi' : i < (chunkSizes n' base rem).length := by
      rw [splitBySizes_length] at h
      exact h
    rw [map_length_get hml i h hi', chunkSizes_getElem]

/-- Witness for C1: `split_characters_into_chunks ['a','b','c','d','e'] 2`
splits as `[['a','b','c'], ['d','e']]`. -/
theorem split_characters_into_chunks_balanced_witness :
    ∃ chunks : List (List Char),
      split_characters_into_chunks ['a', 'b', 'c', 'd', 'e'] 2 = Except.ok chunks ∧
      chunks.flatten = ['a', 'b', 'c', 'd', 'e'] ∧
      chunks.length = (2 : Int).toNat ∧
      ∀ i (h : i < chunks.length),
        (chunks.get ⟨i, h⟩).length =
          (['a', 'b', 'c', 'd', 'e'] : List Char).length / (2 : Int).toNat +
            if i < (['a', 'b', 'c', 'd', 'e'] : List Char).length % (2 : Int).toNat then 1
            else 0 :=
  split_characters_into_chunks_balanced ['a', 'b', 'c', 'd', 'e'] 2 (by decide) (by decide)

/-- **C4.** For `n ≥ len(chars)` and `n > 0`, `split_characters_into_chunks`
returns one single-character chunk per character of `chars`, i.e. `len(chars)`
singleton chunks (possibly fewer than the `n` requested). -/
theorem split_characters_into_chunks_degenerate {α : Type} (chars : List α) (n : Int)
    (h1 : 0 < n) (h2 : (chars.length : Int) ≤ n) :
    split_characters_into_chunks chars n = Except.ok (chars.map fun c => [c]) ∧
    (chars.map fun c => [c]).length = chars.length := by
  constructor
  · unfold split_characters_into_chunks
    rw [if_neg (by omega), if_pos h2]
  · simp

/-- Witness for C4: `partition(['x','y','z'], 10) = [['x'],['y'],['z']]`. -/
theorem split_characters_into_chunks_degenerate_witness :
    split_characters_into_chunks ['x', 'y', 'z'] 10 =
      Except.ok ((['x', 'y', 'z'] : List Char).map fun c => [c]) ∧
    ((['x', 'y', 'z'] : List Char).map fun c => [c]).length =
      (['x', 'y', 'z'] : List Char).length :=
  split_characters_into_chunks_degenerate ['x', 'y', 'z'] 10 (by decide) (by decide)

/-- **C8.** `split_characters_into_chunks` fails (with the `ValueError`
message of the source) exactly when `n ≤ 0`, and returns normally for every
`n > 0`, regardless of the input list. -/
theorem split_characters_into_chunks_error_iff {α : Type} (chars : List α) (n : Int) :
    ((∃ e, split_characters_into_chunks chars n = Except.error e) ↔ n ≤ 0) ∧
    (0 < n → ∃ r, split_characters_into_chunks chars n = Except.ok r) := by
  constructor
  · constructor
    · rintro ⟨e, he⟩
      by_contra hpos
      unfold split_characters_into_chunks at he
      rw [if_neg hpos] at he
      by_cases hc : (chars.length : Int) ≤ n
      · rw [if_pos hc] at he; exact Except.noConfusion he
      · rw [if_neg hc] at he; exact Except.noConfusion he
    · intro hle
      exact ⟨_, by unfold split_characters_into_chunks; rw [if_pos hle]⟩
  · intro hpos
    unfold split_characters_into_chunks
    rw [if_neg (by omega)]
    by_cases hc : (chars.length : Int) ≤ n
    · exact ⟨_, by rw [if_pos hc]⟩
    · exact ⟨_, by rw [if_neg hc]⟩

/-- Witness for C8 at a concrete input: error for `n = 0`, success for `n = 2`. -/
theorem split_characters_into_chunks_error_iff_witness :
    (((∃ e, split_characters_into_chunks ['a'] 0 = Except.error e) ↔ (0 : Int) ≤ 0) ∧
      ((0 : Int) < 0 → ∃ r, split_characters_into_chunks ['a'] 0 = Except.ok r)) ∧
    (((∃ e, split_characters_into_chunks ['a'] 2 = Except.error e) ↔ (2 : Int) ≤ 0) ∧
      ((0 : Int) < 2 → ∃ r, split_characters_into_chunks ['a'] 2 = Except.ok r)) :=
  ⟨split_characters_into_chunks_error_iff ['a'] 0,
   split_characters_into_chunks_error_iff ['a'] 2⟩

/-! ## Shared seen-set accumulator

Several source functions use the idiom
`if x not in seen: seen.add(x); out.append(x)` where `seen` always equals
`set(out)` (or `set(merged)`): the loop is modelled as a fold that appends
an element exactly when it is not yet in the accumulator. -/

/-- `for x in l: if x not in acc: acc.append(x)`. -/
def pyDedupAppend {α : Type} [DecidableEq α] (acc : List α) (l : List α) : List α :=
  l.foldl (fun m x => if x ∈ m then m else m ++ [x]) acc

theorem mem_pyDedupAppend {α : Type} [DecidableEq α] :
    ∀ (l acc : List α) (c : α), c ∈ pyDedupAppend acc l ↔ c ∈ acc ∨ c ∈ l := by
  intro l
  induction l with
  | nil => intro acc c; simp [pyDedupAppend]
  | cons x xs ih =>
    intro acc c
    unfold pyDedupAppend at ih ⊢
    rw [List.foldl_cons]
    by_cases hx : x ∈ acc
    · rw [if_pos hx, ih]
      constructor
      · rintro (h | h) <;> simp [h]
      · rintro (h | h)
        · exact Or.inl h
        · rcases List.mem_cons.mp h with rfl | h
          · exact Or.inl hx
          · exact Or.inr h
    · rw [if_neg hx, ih]
      constructor
      · rintro (h | h)
        · rcases List.mem_append.mp h with h | h
          · exact Or.inl h
          · simp at h; simp [h]
        · simp [h]
      · rintro (h | h)
        · exact Or.inl (List.mem_append.mpr (Or.inl h))
        · rcases List.mem_cons.mp h with rfl | h
          · exact Or.inl (by simp)
          · exact Or.inr h

theorem pyDedupAppend_nodup {α : Type} [DecidableEq α] :
    ∀ (l acc : List α), acc.Nodup → (pyDedupAppend acc l).Nodup := by
  intro l
  induction l with
  | nil => intro acc h; exact h
  | cons x xs ih =>
    intro acc h
    unfold pyDedupAppend
    rw [List.foldl_cons]
    by_cases hx : x ∈ acc
    · rw [if_pos hx]; exact ih acc h
    · rw [if_neg hx]
      refine ih _ ?_
      rw [List.nodup_append]
      exact ⟨h, List.nodup_singleton x, by simpa using hx⟩

theorem pyDedupAppend_eq_self {α : Type} [DecidableEq α] :
    ∀ (l acc : List α), (∀ c ∈ l, c ∈ acc) → pyDedupAppend acc l = acc := by
  intro l
  induction l with
  | nil => intro acc _; rfl
  | cons x xs ih =>
    intro acc h
    unfold pyDedupAppend
    rw [List.foldl_cons, if_pos (h x (by simp))]
    exact ih acc (fun c hc => h c (by simp [hc]))

theorem pyDedupAppend_append {α : Type} [DecidableEq α] (acc a b : List α) :
    pyDedupAppend acc (a ++ b) = pyDedupAppend (pyDedupAppend acc a) b := by
  unfold pyDedupAppend
  exact List.foldl_append _ _ _ _

theorem pyDedupAppend_cons {α : Type} [DecidableEq α] (acc : List α) (x : α) (xs : List α) :
    pyDedupAppend acc (x :: xs) =
      if x ∈ acc then pyDedupAppend acc xs else pyDedupAppend (acc ++ [x]) xs := by
  unfold pyDedupAppend
  rw [List.foldl_cons]
  by_cases hx : x ∈ acc <;> simp [hx]

theorem pyDedupAppend_sublist {α : Type} [DecidableEq α] :
    ∀ (l acc : List α), ∃ s, pyDedupAppend acc l = acc ++ s ∧ s.Sublist l := by
  intro l
  induction l with
  | nil => intro acc; exact ⟨[], by simp [pyDedupAppend]⟩
  | cons x xs ih =>
    intro acc
    rw [pyDedupAppend_cons]
    by_cases hx : x ∈ acc
    · rw [if_pos hx]
      obtain ⟨s, hs, hsub⟩ := ih acc
      exact ⟨s, hs, hsub.cons x⟩
    · rw [if_neg hx]
      obtain ⟨s, hs, hsub⟩ := ih (acc ++ [x])
      exact ⟨x :: s, by rw [hs]; simp, hsub.cons₂ x⟩

theorem pyDedupAppend_of_disjoint {α : Type} [DecidableEq α] :
    ∀ (l acc : List α), l.Nodup → (∀ x ∈ l, x ∉ acc) → pyDedupAppend acc l = acc ++ l := by
  intro l
  induction l with
  | nil => intro acc _ _; simp [pyDedupAppend]
  | cons x xs ih =>
    intro acc hnd hdisj
    unfold pyDedupAppend
    rw [List.foldl_cons, if_neg (hdisj x (by simp))]
    have := ih (acc ++ [x]) (List.nodup_cons.mp hnd).2 ?_
    · unfold pyDedupAppend at this
      rw [this]
      simp
    · intro y hy
      rw [List.mem_append]
      rintro (h | h)
      · exact hdisj y (by simp [hy]) h
      · simp at h
        subst h
        exact (List.nodup_cons.mp hnd).1 hy

/-! ## Available-order filter: `filter_available_chars` -/

/-- `filter_available_chars(font_chars, ordered_chars)` from `font_splitter.py`:
`[c for c in ordered_chars if c in font_char_set]`, where
`font_char_set = set(font_chars)` (same membership as the list). -/
def filter_available_chars {α : Type} [DecidableEq α] (font_chars ordered_chars : List α) :
    List α :=
  ordered_chars.filter (fun c => decide (c ∈ font_chars))

/-- **C5.** `filter_available_chars font_chars ordered` is a subsequence of
`ordered` (relative order preserved), every element of the result is in
`font_chars`, and no character outside both inputs ever appears: membership in
the result is exactly membership in both. -/
theorem filter_available_chars_spec {α : Type} [DecidableEq α]
    (font_chars ordered_chars : List α) :
    (filter_available_chars font_chars ordered_chars).Sublist ordered_chars ∧
    (∀ c, c ∈ filter_available_chars font_chars ordered_chars ↔
      c ∈ font_chars ∧ c ∈ ordered_chars) := by
  constructor
  · exact List.filter_sublist _
  · intro c
    simp [filter_available_chars, List.mem_filter, and_comm]

/-- Witness for C5 at a concrete input. -/
theorem filter_available_chars_spec_witness :
    (filter_available_chars ['b', 'z', 'a'] ['a', 'b', 'c']).Sublist ['a', 'b', 'c'] ∧
    (∀ c, c ∈ filter_available_chars ['b', 'z', 'a'] ['a', 'b', 'c'] ↔
      c ∈ ['b', 'z', 'a'] ∧ c ∈ ['a', 'b', 'c']) :=
  filter_available_chars_spec ['b', 'z', 'a'] ['a', 'b', 'c']

/-! ## Order merger: `merge_orders_keep_first` -/

/-- `merge_orders_keep_first(*orders)` from `font_splitter.py`. The
`if not order: continue` guard of the source is a no-op (iterating an empty
sequence appends nothing) and is not reproduced; the `seen` set mirrors the
membership of `merged` throughout the loop. -/
def merge_orders_keep_first {α : Type} [DecidableEq α] (orders : List (List α)) : List α :=
  orders.foldl (fun merged order => pyDedupAppend merged order) []

theorem merge_orders_foldl {α : Type} [DecidableEq α] :
    ∀ (orders : List (List α)) (acc : List α),
      orders.foldl (fun merged order => pyDedupAppend merged order) acc =
        pyDedupAppend acc orders.flatten := by
  intro orders
  induction orders with
  | nil => intro acc; simp [pyDedupAppend]
  | cons o os ih => intro acc; rw [List.foldl_cons, ih, List.flatten_cons, pyDedupAppend_append]

/-- **C6.** `merge_orders_keep_first` concatenates its arguments in order and
keeps only the globally first occurrence of each character: the result depends
only on the concatenation of the inputs, has no duplicates, is a subsequence of
the concatenation, contains exactly the characters of the inputs,
satisfies `merge_keep_first(a, a) = merge_keep_first(a)`, and
`merge_keep_first(['a','b'], ['b','c']) = ['a','b','c']`. -/
theorem merge_orders_keep_first_spec :
    (∀ (α : Type) (inst : DecidableEq α) (orders : List (List α)),
        merge_orders_keep_first orders = merge_orders_keep_first [orders.flatten]) ∧
    (∀ (α : Type) (inst : DecidableEq α) (orders : List (List α)),
        (merge_orders_keep_first orders).Nodup) ∧
    (∀ (α : Type) (inst : DecidableEq α) (orders : List (List α)),
        (merge_orders_keep_first orders).Sublist orders.flatten) ∧
    (∀ (α : Type) (inst : DecidableEq α) (orders : List (List α)) (c : α),
        c ∈ merge_orders_keep_first orders ↔ c ∈ orders.flatten) ∧
    (∀ (α : Type) (inst : DecidableEq α) (a : List α),
        merge_orders_keep_first [a, a] = merge_orders_keep_first [a]) ∧
    merge_orders_keep_first [['a', 'b'], ['b', 'c']] = ['a', 'b', 'c'] := by
  have hflat : ∀ (α : Type) (inst : DecidableEq α) (orders : List (List α)),
      merge_orders_keep_first orders = pyDedupAppend [] orders.flatten := by
    intro α inst orders
    exact merge_orders_foldl orders []
  refine ⟨?_, ?_, ?_, ?_, ?_, ?_⟩
  · intro α inst orders
    rw [hflat, hflat]
    simp
  · intro α inst orders
    rw [hflat]
    exact pyDedupAppend_nodup _ _ List.nodup_nil
  · intro α inst orders
    rw [hflat]
    obtain ⟨s, hs, hsub⟩ := pyDedupAppend_sublist orders.flatten ([] : List α)
    rw [hs]
    simpa using hsub
  · intro α inst orders c
    rw [hflat, mem_pyDedupAppend]
    simp
  · intro α inst a
    rw [hflat, hflat]
    simp only [List.flatten_cons, List.flatten_nil, List.append_nil]
    rw [pyDedupAppend_append]
    refine pyDedupAppend_eq_self _ _ ?_
    intro c hc
    rw [mem_pyDedupAppend]
    exact Or.inr hc
  · decide

/-! ## Corpus frequency builder: `build_order_from_corpus`

The source reads a list of corpus files and iterates their characters in
order (per-file read failures only skip that file); the embedding takes the
concatenated character stream of the successfully read files. Inside the
loop, `counts[ch]` is the number of non-control occurrences so far,
`first_index[ch]` is the index of the first occurrence in the stream of
kept (non-control) characters (`idx` is incremented only for kept
characters), and `counts.keys()` enumerates characters in first-occurrence
order (Python dicts preserve insertion order). `sorted` is stable, and the
sort key `(-counts[c], first_index[c])` is injective on the keys (distinct
characters have distinct first indices), so any correct sort with respect to
the key's total preorder — in particular `List.mergeSort` — produces
exactly Python's output. -/

/-- The kept (non-control) character stream: `if ch <= '\u001f': continue`. -/
def controlFiltered (corpus : List Nat) : List Nat :=
  corpus.filter (fun c => decide (0x1F < c))

/-- `counts[c]` at the end of the counting loop. -/
def corpusCount (corpus : List Nat) (c : Nat) : Nat := (controlFiltered corpus).count c

/-- `first_index[c]` at the end of the counting loop. -/
def corpusFirstIndex (corpus : List Nat) (c : Nat) : Nat :=
  (controlFiltered corpus).indexOf c

/-- The comparison induced by Python's sort key `(-counts[c], first_index[c])`. -/
def corpusKeyLe (corpus : List Nat) (a b : Nat) : Bool :=
  decide (corpusCount corpus b < corpusCount corpus a) ||
    (decide (corpusCount corpus a = corpusCount corpus b) &&
      decide (corpusFirstIndex corpus a ≤ corpusFirstIndex corpus b))

/-- `build_order_from_corpus` from `font_splitter.py`, as a function of the
corpus character stream. -/
def build_order_from_corpus (corpus : List Nat) : List Nat :=
  (pyDedupAppend [] (controlFiltered corpus)).mergeSort (corpusKeyLe corpus)

theorem corpusKeyLe_total (corpus : List Nat) (a b : Nat) :
    (corpusKeyLe corpus a b || corpusKeyLe corpus b a) = true := by
  simp only [corpusKeyLe, Bool.or_eq_true, Bool.and_eq_true, decide_eq_true_eq]
  omega

theorem corpusKeyLe_trans (corpus : List Nat) (a b c : Nat)
    (hab : corpusKeyLe corpus a b = true) (hbc : corpusKeyLe corpus b c = true) :
    corpusKeyLe corpus a c = true := by
  simp only [corpusKeyLe, Bool.or_eq_true, Bool.and_eq_true, decide_eq_true_eq] at hab hbc ⊢
  omega

/-- **C7.** `build_order_from_corpus` excludes every character with codepoint
`≤ 0x1F`, contains exactly the remaining characters of the corpus (each once),
and is strictly sorted by descending occurrence count with ties broken by
ascending first-seen position. -/
theorem build_order_from_corpus_spec (corpus : List Nat) :
    (∀ c ∈ build_order_from_corpus corpus, 0x1F < c) ∧
    (∀ c, c ∈ build_order_from_corpus corpus ↔ c ∈ corpus ∧ 0x1F < c) ∧
    (build_order_from_corpus corpus).Pairwise (fun a b =>
      corpusCount corpus b < corpusCount corpus a ∨
        (corpusCount corpus a = corpusCount corpus b ∧
          corpusFirstIndex corpus a < corpusFirstIndex corpus b)) ∧
    (build_order_from_corpus corpus).Nodup := by
  have hperm : (build_order_from_corpus corpus).Perm
      (pyDedupAppend [] (controlFiltered corpus)) :=
    List.mergeSort_perm _ _
  have hmem_keys : ∀ c, c ∈ pyDedupAppend [] (controlFiltered corpus) ↔
      c ∈ controlFiltered corpus := by
    intro c
    rw [mem_pyDedupAppend]
    simp
  have hmem_filtered : ∀ c, c ∈ controlFiltered corpus ↔ c ∈ corpus ∧ 0x1F < c := by
    intro c
    rw [controlFiltered, List.mem_filter]
    simp
  have hmem : ∀ c, c ∈ build_order_from_corpus corpus ↔ c ∈ corpus ∧ 0x1F < c := by
    intro c
    rw [hperm.mem_iff, hmem_keys, hmem_filtered]
  have hnodup : (build_order_from_corpus corpus).Nodup :=
    hperm.nodup_iff.mpr (pyDedupAppend_nodup _ _ List.nodup_nil)
  refine ⟨fun c hc => ((hmem c).mp hc).2, hmem, ?_, hnodup⟩
  have hsorted : (build_order_from_corpus corpus).Pairwise
      (fun a b => corpusKeyLe corpus a b = true) :=
    List.sorted_mergeSort (corpusKeyLe_trans corpus) (corpusKeyLe_total corpus) _
  have hne : (build_order_from_corpus corpus).Pairwise (· ≠ ·) := hnodup
  refine (hsorted.and hne).imp_of_mem ?_
  intro a b ha hb hab
  obtain ⟨hle, hne'⟩ := hab
  simp only [corpusKeyLe, Bool.or_eq_true, Bool.and_eq_true, decide_eq_true_eq] at hle
  rcases hle with h | ⟨hcnt, hfi⟩
  · exact Or.inl h
  · refine Or.inr ⟨hcnt, ?_⟩
    have hamem : a ∈ controlFiltered corpus := (hmem_filtered a).mpr ((hmem a).mp ha)
    have hbmem : b ∈ controlFiltered corpus := (hmem_filtered b).mpr ((hmem b).mp hb)
    have : corpusFirstIndex corpus a ≠ corpusFirstIndex corpus b := by
      intro heq
      exact hne' ((List.indexOf_inj hamem hbmem).mp heq)
    omega

/-- Witness for C7 at a concrete corpus (control characters dropped,
frequency-descending order, first-seen tiebreak). -/
theorem build_order_from_corpus_spec_witness :
    (∀ c ∈ build_order_from_corpus [0x62, 0x0A, 0x61, 0x62, 0x61, 0x63, 0x62], 0x1F < c) ∧
    (∀ c, c ∈ build_order_from_corpus [0x62, 0x0A, 0x61, 0x62, 0x61, 0x63, 0x62] ↔
      c ∈ [0x62, 0x0A, 0x61, 0x62, 0x61, 0x63, 0x62] ∧ 0x1F < c) ∧
    (build_order_from_corpus [0x62, 0x0A, 0x61, 0x62, 0x61, 0x63, 0x62]).Pairwise
      (fun a b =>
        corpusCount [0x62, 0x0A, 0x61, 0x62, 0x61, 0x63, 0x62] b <
            corpusCount [0x62, 0x0A, 0x61, 0x62, 0x61, 0x63, 0x62] a ∨
          (corpusCount [0x62, 0x0A, 0x61, 0x62, 0x61, 0x63, 0x62] a =
              corpusCount [0x62, 0x0A, 0x61, 0x62, 0x61, 0x63, 0x62] b ∧
            corpusFirstIndex [0x62, 0x0A, 0x61, 0x62, 0x61, 0x63, 0x62] a <
              corpusFirstIndex [0x62, 0x0A, 0x61, 0x62, 0x61, 0x63, 0x62] b)) ∧
    (build_order_from_corpus [0x62, 0x0A, 0x61, 0x62, 0x61, 0x63, 0x62]).Nodup :=
  build_order_from_corpus_spec [0x62, 0x0A, 0x61, 0x62, 0x61, 0x63, 0x62]

/-! ## Unicode-range text parser: `parse_unicode_ranges_from_text`

The source scans `text` with `re.finditer(r"unicode-range\s*:\s*([^;]+);", text,
re.IGNORECASE)`, strips `/\*.*?\*/` comments from each captured group, splits
on commas, strips each item, and matches it against
`U\+([0-9A-Fa-f]{1,6})(?:-([0-9A-Fa-f]{1,6}))?` (case-sensitive `re.match`,
i.e. an unanchored prefix match).

The regexes are embedded as deterministic scanners:
* In `unicode-range\s*:\s*([^;]+);` the only backtracking the Python engine
  can perform is between the second `\s*` and `([^;]+)` (whitespace is also a
  `[^;]` character): when the maximal-munch group would be empty but at least
  one whitespace character was consumed, the group instead captures the last
  whitespace character. Everywhere else maximal munch is exact, because the
  character following each starred class (`:`, `;`) is excluded from it.
* `re.IGNORECASE` is modelled as ASCII case folding, which is exact for the
  letters of the literal `unicode-range`.
* In the token regex, the greedy `{1,6}` groups never backtrack: the optional
  `(?:-...)` group can always succeed empty, and `-` is not a hex digit.
* Lazy `/\*.*?\*/` removes, left to right, each `/*` together with the text
  up to the nearest following `*/`; a `/*` with no closing `*/` stays.
* Python `str.strip()` and `\s` are modelled by `isPySpace`, the whitespace
  set of Python's `str` regexes. -/

/-- Python's whitespace class `\s` for `str` patterns (also used by `strip`). -/
def isPySpace (c : Nat) : Bool :=
  decide (c = 0x20) || decide (0x9 ≤ c ∧ c ≤ 0xD) || decide (0x1C ≤ c ∧ c ≤ 0x1F) ||
    decide (c = 0x85) || decide (c = 0xA0) || decide (c = 0x1680) ||
    decide (0x2000 ≤ c ∧ c ≤ 0x200A) || decide (c = 0x2028) || decide (c = 0x2029) ||
    decide (c = 0x202F) || decide (c = 0x205F) || decide (c = 0x3000)

/-- ASCII lowercase folding, for the case-insensitive literal match. -/
def pyLowerAscii (c : Nat) : Nat := if 0x41 ≤ c ∧ c ≤ 0x5A then c + 0x20 else c

/-- The literal part of the outer regex. -/
def unicodeRangeLiteral : List Nat := pyStr "unicode-range"

/-- Match a lowercase literal case-insensitively at the head; return the rest. -/
def matchLiteralCI : List Nat → List Nat → Option (List Nat)
  | [], rest => some rest
  | _ :: _, [] => none
  | l :: ls, c :: cs => if pyLowerAscii c = l then matchLiteralCI ls cs else none

/-- The maximal-munch capture of `([^;]+)` starting at `r4`. -/
def matchOuterGroup (r4 : List Nat) : List Nat :=
  r4.takeWhile (fun c => decide (c ≠ 0x3B))

/-- The part of the outer match after the `:`: `\s*([^;]+);`. When the
maximal-munch group would be empty but the greedy `\s*` consumed at least one
character, the engine backtracks by one character and the group captures the
last whitespace character (whitespace is also `[^;]`). -/
def matchOuterTail (r3 : List Nat) : Option (List Nat × List Nat) :=
  if (matchOuterGroup (r3.drop (r3.takeWhile isPySpace).length)).isEmpty then
    match (r3.takeWhile isPySpace).reverse,
        r3.drop (r3.takeWhile isPySpace).length with
    | w :: _, semi :: r5 => if semi = 0x3B then some ([w], r5) else none
    | _, _ => none
  else
    match (r3.drop (r3.takeWhile isPySpace).length).drop
        (matchOuterGroup (r3.drop (r3.takeWhile isPySpace).length)).length with
    | semi :: r5 =>
      if semi = 0x3B then
        some (matchOuterGroup (r3.drop (r3.takeWhile isPySpace).length), r5)
      else none
    | [] => none

/-- Try to match `unicode-range\s*:\s*([^;]+);` at the start of `s`; on
success return the captured group and the remaining input after the `;`. -/
def matchOuterAt (s : List Nat) : Option (List Nat × List Nat) :=
  match matchLiteralCI unicodeRangeLiteral s with
  | none => none
  | some r1 =>
    match r1.dropWhile isPySpace with
    | c :: r3 => if c = 0x3A then matchOuterTail r3 else none
    | [] => none

/-- `re.finditer` driver: try each start position left to right, resuming
after each (necessarily non-empty) match. Every step consumes at least one
character, so fuel `s.length` is exact. -/
def findAllRangesAux : Nat → List Nat → List (List Nat)
  | 0, _ => []
  | fuel + 1, s =>
    match matchOuterAt s with
    | some (grp, rest) => grp :: findAllRangesAux fuel rest
    | none =>
      match s with
      | [] => []
      | _ :: tail => findAllRangesAux fuel tail

/-- All captured `unicode-range` groups of the text, in order. -/
def findAllRanges (s : List Nat) : List (List Nat) := findAllRangesAux s.length s

/-- Scan for the closing `*/`; return the suffix after it. -/
def findCommentClose : List Nat → Option (List Nat)
  | a :: b :: rest =>
    if a = 0x2A ∧ b = 0x2F then some rest else findCommentClose (b :: rest)
  | _ => none

/-- `re.sub(r"/\*.*?\*/", "", s, flags=re.DOTALL)`, with fuel `s.length`
(each step consumes at least one input character, so the fuel is exact). -/
def stripCommentsAux : Nat → List Nat → List Nat
  | _, [] => []
  | 0, s => s
  | fuel + 1, c :: rest =>
    if c = 0x2F then
      match rest with
      | 0x2A :: rest2 =>
        match findCommentClose rest2 with
        | some rest3 => stripCommentsAux fuel rest3
        | none => c :: stripCommentsAux fuel rest
      | _ => c :: stripCommentsAux fuel rest
    else c :: stripCommentsAux fuel rest

/-- Remove C-style block comments, as the source does inside each group. -/
def stripComments (s : List Nat) : List Nat := stripCommentsAux s.length s

/-- Python `str.split(sep)` for a one-character separator (keeps empties). -/
def pySplit (sep : Nat) : List Nat → List (List Nat)
  | [] => [[]]
  | c :: rest =>
    if c = sep then [] :: pySplit sep rest
    else
      match pySplit sep rest with
      | g :: gs => (c :: g) :: gs
      | [] => [[c]]

/-- Python `str.strip()`. -/
def pyStrip (s : List Nat) : List Nat :=
  (((s.dropWhile isPySpace).reverse).dropWhile isPySpace).reverse

/-- The character class `[0-9A-Fa-f]`. -/
def isHexDigitChar (c : Nat) : Bool :=
  decide (0x30 ≤ c ∧ c ≤ 0x39) || decide (0x41 ≤ c ∧ c ≤ 0x46) ||
    decide (0x61 ≤ c ∧ c ≤ 0x66)

/-- Value of one hex digit character. -/
def hexVal (c : Nat) : Nat :=
  if c ≤ 0x39 then c - 0x30 else if c ≤ 0x46 then c - 0x37 else c - 0x57

/-- Python `int(s, 16)` on a string of hex digits. -/
def hexToNat (ds : List Nat) : Nat := ds.foldl (fun a d => 16 * a + hexVal d) 0

/-- The greedy `{1,6}` hex-digit group starting at `rest`. -/
def hexGroup (rest : List Nat) : List Nat := (rest.takeWhile isHexDigitChar).take 6

/-- `re.match(r"U\+([0-9A-Fa-f]{1,6})(?:-([0-9A-Fa-f]{1,6}))?", token)`:
returns `(int(group1, 16), Option (int(group2, 16)))` on a match (`re.match`
is an unanchored prefix match, so trailing input is ignored). -/
def matchToken : List Nat → Option (Nat × Option Nat)
  | c1 :: c2 :: rest =>
    if c1 = 0x55 ∧ c2 = 0x2B then
      if (hexGroup rest).isEmpty then none
      else
        match rest.drop (hexGroup rest).length with
        | c3 :: rest3 =>
          if c3 = 0x2D then
            if (hexGroup rest3).isEmpty then some (hexToNat (hexGroup rest), none)
            else some (hexToNat (hexGroup rest), some (hexToNat (hexGroup rest3)))
          else some (hexToNat (hexGroup rest), none)
        | [] => some (hexToNat (hexGroup rest), none)
    else none
  | _ => none

/-- `for cp in range(lo, hi + 1): if cp not in seen: seen.add(cp); out.append(cp)`. -/
def addRange (acc : List Nat) (lo hi : Nat) : List Nat :=
  pyDedupAppend acc (List.range' lo (hi + 1 - lo))

/-- Processing of one comma-separated item of a captured group: strip it,
skip it when empty or unmatched, otherwise normalize the endpoint order
(`if end_cp < start_cp: swap`) and expand. -/
def tokenStep (acc : List Nat) (item : List Nat) : List Nat :=
  if (pyStrip item).isEmpty then acc
  else
    match matchToken (pyStrip item) with
    | none => acc
    | some (sc, ec) => addRange acc (min sc (ec.getD sc)) (max sc (ec.getD sc))

/-- Processing of one captured `unicode-range` group. -/
def groupStep (acc : List Nat) (grp : List Nat) : List Nat :=
  (pySplit 0x2C (stripComments grp)).foldl tokenStep acc

/-- `parse_unicode_ranges_from_text(text)` from `font_splitter.py`. -/
def parse_unicode_ranges_from_text (text : List Nat) : List Nat :=
  (findAllRanges text).foldl groupStep []

/-- CPython `chr`: defined for every codepoint `0 ≤ cp ≤ 0x10FFFF` (lone
surrogates included); raises `ValueError` above that. -/
def pyChr (cp : Nat) : Option Nat := if cp ≤ 0x10FFFF then some cp else none

/-- `parse_unicode_order_file` from `font_splitter.py`, as a function of the
file's content (the `open`/`read` I/O wrapper is outside the embedding): the
parsed codepoints are converted with `chr`, and codepoints on which `chr`
raises are skipped by the `try/except` around the append. -/
def parse_unicode_order_file (content : List Nat) : List Nat :=
  (parse_unicode_ranges_from_text content).foldl
    (fun chars cp =>
      match pyChr cp with
      | some ch => chars ++ [ch]
      | none => chars) []

/-! ## Range compressor: `codepoints_to_unicode_ranges` -/

/-- The character of one lowercase hex digit, as in Python's `:x` format. -/
def hexDigitChar (d : Nat) : Nat := if d < 10 then 0x30 + d else 0x57 + d

/-- Digit extraction loop with fuel (the recursion divides by 16, so any
fuel above the argument is enough and the result is fuel-independent). -/
def natToHexAux : Nat → Nat → List Nat
  | 0, _ => []
  | fuel + 1, n =>
    if n < 16 then [hexDigitChar n]
    else natToHexAux fuel (n / 16) ++ [hexDigitChar (n % 16)]

/-- Python `f"{n:x}"`: lowercase hex without padding (`"0"` for zero). -/
def natToHex (n : Nat) : List Nat := natToHexAux (n + 1) n

theorem natToHexAux_fuel :
    ∀ (fuel fuel2 n : Nat), n < fuel → n < fuel2 →
      natToHexAux fuel n = natToHexAux fuel2 n := by
  intro fuel
  induction fuel with
  | zero => intro fuel2 n h; omega
  | succ f ih =>
    intro fuel2 n h h2
    cases fuel2 with
    | zero => omega
    | succ g =>
      show (if n < 16 then [hexDigitChar n]
          else natToHexAux f (n / 16) ++ [hexDigitChar (n % 16)]) =
        (if n < 16 then [hexDigitChar n]
          else natToHexAux g (n / 16) ++ [hexDigitChar (n % 16)])
      by_cases hn : n < 16
      · rw [if_pos hn, if_pos hn]
      · rw [if_neg hn, if_neg hn, ih g (n / 16) (by omega) (by omega)]

theorem natToHex_lt (n : Nat) (h : n < 16) : natToHex n = [hexDigitChar n] := by
  unfold natToHex natToHexAux
  rw [if_pos h]

theorem natToHex_ge (n : Nat) (h : 16 ≤ n) :
    natToHex n = natToHex (n / 16) ++ [hexDigitChar (n % 16)] := by
  show natToHexAux (n + 1) n = natToHexAux (n / 16 + 1) (n / 16) ++ [hexDigitChar (n % 16)]
  rw [show natToHexAux (n + 1) n =
      (if n < 16 then [hexDigitChar n]
        else natToHexAux n (n / 16) ++ [hexDigitChar (n % 16)]) from rfl,
    if_neg (by omega)]
  have hlt : n / 16 < n := Nat.div_lt_self (by omega) (by omega)
  rw [natToHexAux_fuel n (n / 16 + 1) (n / 16) (by omega) (by omega)]

/-- `f"U+{start:x}"` for a singleton run, `f"U+{start:x}-{prev:x}"` otherwise. -/
def renderRange (start prev : Nat) : List Nat :=
  if start = prev then pyStr "U+" ++ natToHex start
  else pyStr "U+" ++ natToHex start ++ 0x2D :: natToHex prev

/-- The compression loop of `codepoints_to_unicode_ranges`, carrying the
current run `[start, prev]`. -/
def cprLoop : List Nat → Nat → Nat → List (List Nat)
  | [], start, prev => [renderRange start prev]
  | cp :: rest, start, prev =>
    if cp = prev + 1 then cprLoop rest start cp
    else renderRange start prev :: cprLoop rest cp cp

/-- `codepoints_to_unicode_ranges(codepoints)` from `font_splitter.py`. -/
def codepoints_to_unicode_ranges : List Nat → List (List Nat)
  | [] => []
  | cp :: rest => cprLoop rest cp cp

/-- Python `",".join(ranges)`. -/
def joinSep (sep : Nat) : List (List Nat) → List Nat
  | [] => []
  | [t] => t
  | t :: ts => t ++ sep :: joinSep sep ts

/-- Spec-side description of the compressor's runs (following the spec's
words): split the input into maximal runs in which each element equals the
immediately preceding input element plus one, each run given by its first and
last element. Defined by recursion from the right — a new element `c` extends
the first run of the rest exactly when that run starts at `c + 1` — in
contrast to the left-to-right loop of the source. -/
def specConsecRuns : List Nat → List (Nat × Nat)
  | [] => []
  | c :: rest =>
    match specConsecRuns rest with
    | (s2, e2) :: rs =>
      if s2 = c + 1 then (c, e2) :: rs else (c, c) :: (s2, e2) :: rs
    | [] => [(c, c)]

/-- The expansion of one run back into its codepoints. -/
def runExpand (p : Nat × Nat) : List Nat := List.range' p.1 (p.2 + 1 - p.1)

theorem specConsecRuns_cons_eq (c : Nat) (rest : List Nat) :
    specConsecRuns (c :: rest) =
      match specConsecRuns rest with
      | (s2, e2) :: rs =>
        if s2 = c + 1 then (c, e2) :: rs else (c, c) :: (s2, e2) :: rs
      | [] => [(c, c)] := rfl

theorem specConsecRuns_nil : specConsecRuns [] = [] := rfl

theorem specConsecRuns_step_nil {rest : List Nat} (c : Nat)
    (h : specConsecRuns rest = []) :
    specConsecRuns (c :: rest) = [(c, c)] := by
  rw [specConsecRuns_cons_eq, h]

theorem specConsecRuns_step_cons {rest : List Nat} {s2 e2 : Nat} {rs : List (Nat × Nat)}
    (c : Nat) (h : specConsecRuns rest = (s2, e2) :: rs) :
    specConsecRuns (c :: rest) =
      if s2 = c + 1 then (c, e2) :: rs else (c, c) :: (s2, e2) :: rs := by
  rw [specConsecRuns_cons_eq, h]

theorem specConsecRuns_cons :
    ∀ (l : List Nat) (c : Nat), ∃ e rs, specConsecRuns (c :: l) = (c, e) :: rs := by
  intro l
  induction l with
  | nil => intro c; exact ⟨c, [], rfl⟩
  | cons c2 l' ih =>
    intro c
    obtain ⟨e2, rs2, h2⟩ := ih c2
    rw [specConsecRuns_step_cons c h2]
    by_cases hc : c2 = c + 1
    · exact ⟨e2, rs2, by rw [if_pos hc]⟩
    · exact ⟨c, (c2, e2) :: rs2, by rw [if_neg hc]⟩

theorem cprLoop_runs :
    ∀ (rest : List Nat) (start prev e : Nat) (rs : List (Nat × Nat)),
      specConsecRuns (prev :: rest) = (prev, e) :: rs →
      cprLoop rest start prev =
        renderRange start e :: rs.map (fun p => renderRange p.1 p.2) := by
  intro rest
  induction rest with
  | nil =>
    intro start prev e rs h
    rw [specConsecRuns_step_nil prev specConsecRuns_nil] at h
    simp only [List.cons.injEq, Prod.mk.injEq] at h
    obtain ⟨⟨-, he⟩, hrs⟩ := h
    subst he
    subst hrs
    rfl
  | cons cp rest' ih =>
    intro start prev e rs h
    obtain ⟨e', rs', hruns⟩ := specConsecRuns_cons rest' cp
    rw [specConsecRuns_step_cons prev hruns] at h
    have hcpr : cprLoop (cp :: rest') start prev =
        if cp = prev + 1 then cprLoop rest' start cp
        else renderRange start prev :: cprLoop rest' cp cp := rfl
    by_cases hc : cp = prev + 1
    · rw [if_pos hc] at h
      simp only [List.cons.injEq, Prod.mk.injEq] at h
      obtain ⟨⟨-, he⟩, hrs⟩ := h
      subst he
      subst hrs
      rw [hcpr, if_pos hc]
      exact ih start cp _ _ hruns
    · rw [if_neg hc] at h
      simp only [List.cons.injEq, Prod.mk.injEq] at h
      obtain ⟨⟨-, he⟩, hrs⟩ := h
      subst he
      subst hrs
      rw [hcpr, if_neg hc, ih cp cp e' rs' hruns]
      simp

/-- The compressor equals the spec-side runs decomposition, rendered. -/
theorem codepoints_to_unicode_ranges_eq_runs (cps : List Nat) :
    codepoints_to_unicode_ranges cps =
      (specConsecRuns cps).map (fun p => renderRange p.1 p.2) := by
  cases cps with
  | nil => rfl
  | cons c rest =>
    obtain ⟨e, rs, hruns⟩ := specConsecRuns_cons rest c
    rw [show codepoints_to_unicode_ranges (c :: rest) = cprLoop rest c c from rfl,
      cprLoop_runs rest c c e rs hruns, hruns]
    simp

theorem specConsecRuns_le :
    ∀ (l : List Nat), ∀ p ∈ specConsecRuns l, p.1 ≤ p.2 := by
  intro l
  induction l with
  | nil => intro p hp; simp [specConsecRuns] at hp
  | cons c rest ih =>
    intro p hp
    cases hrest : specConsecRuns rest with
    | nil =>
      rw [specConsecRuns_step_nil c hrest] at hp
      simp at hp
      simp [hp]
    | cons q rs =>
      obtain ⟨s2, e2⟩ := q
      rw [specConsecRuns_step_cons c hrest] at hp
      have hs2e2 : s2 ≤ e2 := by
        have := ih (s2, e2) (by rw [hrest]; simp)
        simpa using this
      by_cases hc : s2 = c + 1
      · rw [if_pos hc] at hp
        rcases List.mem_cons.mp hp with rfl | hmem
        · show c ≤ e2
          omega
        · exact ih p (by rw [hrest]; simp [hmem])
      · rw [if_neg hc] at hp
        rcases List.mem_cons.mp hp with rfl | hmem
        · simp
        · exact ih p (by rw [hrest]; exact hmem)

theorem specConsecRuns_flatten :
    ∀ (l : List Nat), ((specConsecRuns l).map runExpand).flatten = l := by
  intro l
  induction l with
  | nil => rfl
  | cons c rest ih =>
    cases hrest : specConsecRuns rest with
    | nil =>
      have hrestnil : rest = [] := by
        cases rest with
        | nil => rfl
        | cons c2 l' =>
          obtain ⟨e2, rs2, h2⟩ := specConsecRuns_cons l' c2
          rw [h2] at hrest
          exact absurd hrest (by simp)
      subst hrestnil
      rw [specConsecRuns_step_nil c specConsecRuns_nil]
      simp [runExpand]
    | cons q rs =>
      obtain ⟨s2, e2⟩ := q
      rw [specConsecRuns_step_cons c hrest]
      rw [hrest] at ih
      have hs2e2 : s2 ≤ e2 := by
        have := specConsecRuns_le rest (s2, e2) (by rw [hrest]; simp)
        simpa using this
      by_cases hc : s2 = c + 1
      · subst hc
        rw [if_pos rfl]
        have hexp : runExpand (c, e2) = c :: runExpand (c + 1, e2) := by
          show List.range' c (e2 + 1 - c) = c :: List.range' (c + 1) (e2 + 1 - (c + 1))
          have h1 : e2 + 1 - c = (e2 + 1 - (c + 1)) + 1 := by omega
          rw [h1, List.range'_succ]
        simp only [List.map_cons, List.flatten_cons] at ih ⊢
        rw [hexp]
        simp only [List.cons_append]
        rw [ih]
      · rw [if_neg hc]
        simp only [List.map_cons, List.flatten_cons] at ih ⊢
        rw [show runExpand (c, c) = [c] by simp [runExpand]]
        simp only [List.singleton_append]
        rw [ih]

/-! ## Claims about the parser, the order-file reader and the compressor -/

theorem foldl_preserve {α β : Type} (P : α → Prop) (f : α → β → α)
    (hf : ∀ acc x, P acc → P (f acc x)) :
    ∀ (l : List β) (acc : α), P acc → P (l.foldl f acc) := by
  intro l
  induction l with
  | nil => intro acc h; exact h
  | cons x xs ih => intro acc h; exact ih _ (hf acc x h)

theorem tokenStep_nodup (acc item : List Nat) (h : acc.Nodup) : (tokenStep acc item).Nodup := by
  rw [tokenStep]
  by_cases he : (pyStrip item).isEmpty
  · rw [if_pos he]; exact h
  · rw [if_neg he]
    cases hm : matchToken (pyStrip item) with
    | none => exact h
    | some p =>
      obtain ⟨sc, ec⟩ := p
      exact pyDedupAppend_nodup _ _ h

/-- **C3.** `parse_unicode_ranges_from_text` appends every codepoint at most
once across the whole scan (first-encountered order, no duplicates), strips
block comments before splitting on commas (second conjunct: the embedded
commas of the comment do not break the token), and swaps reversed endpoints
(third conjunct); on the text `unicode-range: U+0041 (comment) -0043;` of the
claim, with the parenthesized part written as a C-style block comment, it
yields exactly `[0x41, 0x42, 0x43]`. -/
theorem parse_unicode_ranges_from_text_spec :
    (∀ text : List Nat, (parse_unicode_ranges_from_text text).Nodup) ∧
    parse_unicode_ranges_from_text
      (pyStr "unicode-range: U+0041/*comment,with,commas*/-0043;") = [0x41, 0x42, 0x43] ∧
    parse_unicode_ranges_from_text (pyStr "unicode-range: U+0043-0041;") =
      [0x41, 0x42, 0x43] := by
  refine ⟨?_, by decide, by decide⟩
  intro text
  unfold parse_unicode_ranges_from_text
  refine foldl_preserve List.Nodup groupStep ?_ _ _ List.nodup_nil
  intro acc grp hacc
  unfold groupStep
  exact foldl_preserve List.Nodup tokenStep (fun a i ha => tokenStep_nodup a i ha) _ _ hacc

theorem foldl_pyChr_filter :
    ∀ (l acc : List Nat),
      l.foldl (fun chars cp =>
          match pyChr cp with
          | some ch => chars ++ [ch]
          | none => chars) acc =
        acc ++ l.filter (fun cp => decide (cp ≤ 0x10FFFF)) := by
  intro l
  induction l with
  | nil => intro acc; simp
  | cons cp rest ih =>
    intro acc
    rw [List.foldl_cons]
    by_cases hcp : cp ≤ 0x10FFFF
    · rw [show (match pyChr cp with
          | some ch => acc ++ [ch]
          | none => acc) = acc ++ [cp] by rw [pyChr, if_pos hcp]]
      rw [ih]
      simp [List.filter_cons, hcp]
    · rw [show (match pyChr cp with
          | some ch => acc ++ [ch]
          | none => acc) = acc by rw [pyChr, if_neg hcp]]
      rw [ih]
      simp [List.filter_cons, hcp]

/-- **C9 (amended).** When converting parsed codepoints to characters,
`parse_unicode_order_file` drops exactly the codepoints on which CPython's
`chr` raises — those above `0x10FFFF` — and such codepoints never make the
parse fail: the result is always the parsed list filtered to `≤ 0x10FFFF`
(so `U+110000` is dropped silently). Surrogate codepoints are accepted by
`chr` and are NOT dropped. -/
theorem parse_unicode_order_file_spec :
    (∀ content : List Nat,
      parse_unicode_order_file content =
        (parse_unicode_ranges_from_text content).filter
          (fun cp => decide (cp ≤ 0x10FFFF))) ∧
    parse_unicode_order_file (pyStr "unicode-range: U+110000;") = [] := by
  refine ⟨?_, by decide⟩
  intro content
  rw [parse_unicode_order_file, foldl_pyChr_filter]
  simp

/-- **C9 (counterexample).** The claim that surrogate codepoints parsed from
a range never occur in the result of `parse_unicode_order_file` is false:
CPython's `chr(0xD800)` succeeds, so the lone surrogate is kept. -/
theorem parse_unicode_order_file_keeps_surrogate :
    parse_unicode_order_file (pyStr "unicode-range: U+D800;") = [0xD800] := by decide

/-- **C2.** `codepoints_to_unicode_ranges` consumes its input in the given
order without sorting: it renders exactly the maximal runs in which each
element is the immediately preceding input element plus one
(`specConsecRuns`), emitting `U+{hex}` for singleton runs and
`U+{start}-{end}` for longer runs in lowercase unpadded hex; in particular
the two example evaluations of the claim hold. -/
theorem codepoints_to_unicode_ranges_spec :
    (∀ cps : List Nat, codepoints_to_unicode_ranges cps =
        (specConsecRuns cps).map (fun p => renderRange p.1 p.2)) ∧
    codepoints_to_unicode_ranges [0x4E05, 0x4E00, 0x4E01] =
      [pyStr "U+4e05", pyStr "U+4e00-4e01"] ∧
    codepoints_to_unicode_ranges [0x4E00, 0x4E01, 0x4E02, 0x4E05] =
      [pyStr "U+4e00-4e02", pyStr "U+4e05"] :=
  ⟨codepoints_to_unicode_ranges_eq_runs, by decide, by decide⟩

/-! ## Round-trip of the compressor through the parser -/

theorem takeWhile_all {p : Nat → Bool} :
    ∀ (l : List Nat), (∀ c ∈ l, p c = true) → l.takeWhile p = l := by
  intro l
  induction l with
  | nil => intro _; rfl
  | cons c rest ih =>
    intro h
    rw [List.takeWhile_cons, if_pos (h c (by simp)), ih (fun x hx => h x (by simp [hx]))]

theorem dropWhile_all_neg {p : Nat → Bool} :
    ∀ (l : List Nat), (∀ c ∈ l, p c = false) → l.dropWhile p = l := by
  intro l
  cases l with
  | nil => intro _; rfl
  | cons c rest =>
    intro h
    rw [List.dropWhile_cons, if_neg (by simp [h c (by simp)])]

theorem pyStrip_id (l : List Nat) (h : ∀ c ∈ l, isPySpace c = false) : pyStrip l = l := by
  unfold pyStrip
  rw [dropWhile_all_neg l h, dropWhile_all_neg l.reverse (fun c hc => h c (by simpa using hc)),
    List.reverse_reverse]

theorem mem_joinSep {sep : Nat} :
    ∀ (ts : List (List Nat)) (c : Nat), c ∈ joinSep sep ts →
      c = sep ∨ ∃ t ∈ ts, c ∈ t := by
  intro ts
  induction ts with
  | nil => intro c hc; simp [joinSep] at hc
  | cons t ts ih =>
    intro c hc
    cases ts with
    | nil =>
      simp only [joinSep] at hc
      exact Or.inr ⟨t, by simp, hc⟩
    | cons t2 ts' =>
      rw [show joinSep sep (t :: t2 :: ts') = t ++ sep :: joinSep sep (t2 :: ts') from rfl] at hc
      rcases List.mem_append.mp hc with h | h
      · exact Or.inr ⟨t, by simp, h⟩
      · rcases List.mem_cons.mp h with rfl | h
        · exact Or.inl rfl
        · rcases ih c h with h2 | ⟨t3, ht3, hc3⟩
          · exact Or.inl h2
          · exact Or.inr ⟨t3, by simp [ht3], hc3⟩

theorem joinSep_cons (sep : Nat) (t : List Nat) (ts : List (List Nat)) :
    ∃ more, joinSep sep (t :: ts) = t ++ more := by
  cases ts with
  | nil => exact ⟨[], by simp [joinSep]⟩
  | cons t2 ts' => exact ⟨sep :: joinSep sep (t2 :: ts'), rfl⟩

theorem hexDigitChar_isHex (d : Nat) (h : d < 16) : isHexDigitChar (hexDigitChar d) = true := by
  unfold hexDigitChar isHexDigitChar
  by_cases h10 : d < 10
  · rw [if_pos h10]; simp; omega
  · rw [if_neg h10]; simp; omega

theorem hexVal_hexDigitChar (d : Nat) (h : d < 16) : hexVal (hexDigitChar d) = d := by
  unfold hexDigitChar hexVal
  by_cases h10 : d < 10
  · rw [if_pos h10, if_pos (by omega)]
    omega
  · rw [if_neg h10, if_neg (by omega), if_neg (by omega)]
    omega

theorem natToHex_all_hex : ∀ (n : Nat), ∀ c ∈ natToHex n, isHexDigitChar c = true := by
  intro n
  induction n using Nat.strong_induction_on with
  | _ n ih =>
    intro c hc
    by_cases h16 : n < 16
    · rw [natToHex_lt n h16] at hc
      simp at hc
      subst hc
      exact hexDigitChar_isHex n h16
    · rw [natToHex_ge n (by omega)] at hc
      rcases List.mem_append.mp hc with h | h
      · exact ih (n / 16) (by omega) c h
      · simp at h
        subst h
        exact hexDigitChar_isHex (n % 16) (by omega)

theorem natToHex_ne_nil (n : Nat) : natToHex n ≠ [] := by
  by_cases h16 : n < 16
  · rw [natToHex_lt n h16]; simp
  · rw [natToHex_ge n (by omega)]; simp

theorem natToHex_length_le : ∀ (k n : Nat), 0 < k → n < 16 ^ k → (natToHex n).length ≤ k := by
  intro k
  induction k with
  | zero => intro n h; omega
  | succ k ih =>
    intro n _ h
    by_cases h16 : n < 16
    · rw [natToHex_lt n h16]; simp
    · have hk : 0 < k := by
        by_contra hk0
        have : k = 0 := by omega
        subst this
        simp at h
        omega
      rw [natToHex_ge n (by omega)]
      have hdiv : n / 16 < 16 ^ k := by
        rw [Nat.div_lt_iff_lt_mul (by omega)]
        calc n < 16 ^ (k + 1) := h
        _ = 16 ^ k * 16 := by ring
      have := ih (n / 16) hk hdiv
      simp [List.length_append]
      omega

theorem hexToNat_append_digit (a : List Nat) (d : Nat) :
    hexToNat (a ++ [d]) = 16 * hexToNat a + hexVal d := by
  unfold hexToNat
  rw [List.foldl_append]
  rfl

theorem hexToNat_natToHex : ∀ (n : Nat), hexToNat (natToHex n) = n := by
  intro n
  induction n using Nat.strong_induction_on with
  | _ n ih =>
    by_cases h16 : n < 16
    · rw [natToHex_lt n h16]
      show 16 * 0 + hexVal (hexDigitChar n) = n
      rw [hexVal_hexDigitChar n h16]
      omega
    · rw [natToHex_ge n (by omega), hexToNat_append_digit, ih (n / 16) (by omega),
        hexVal_hexDigitChar (n % 16) (by omega)]
      omega

/-- The characters a rendered range token can contain. -/
def isTokenChar (c : Nat) : Prop :=
  c = 0x55 ∨ c = 0x2B ∨ c = 0x2D ∨ isHexDigitChar c = true

theorem isTokenChar_props (c : Nat) (h : isTokenChar c) :
    c ≠ 0x3B ∧ c ≠ 0x2C ∧ c ≠ 0x2F ∧ isPySpace c = false := by
  unfold isTokenChar at h
  simp only [isHexDigitChar, Bool.or_eq_true, decide_eq_true_eq] at h
  refine ⟨by omega, by omega, by omega, ?_⟩
  simp only [isPySpace, Bool.or_eq_false_iff, decide_eq_false_iff_not]
  omega

theorem renderRange_shape (s e : Nat) :
    ∃ tl, renderRange s e = 0x55 :: 0x2B :: tl := by
  unfold renderRange
  by_cases h : s = e
  · exact ⟨natToHex s, by rw [if_pos h]; rfl⟩
  · exact ⟨natToHex s ++ 0x2D :: natToHex e, by rw [if_neg h]; rfl⟩

theorem renderRange_chars (s e : Nat) : ∀ c ∈ renderRange s e, isTokenChar c := by
  intro c hc
  unfold renderRange at hc
  by_cases h : s = e
  · rw [if_pos h] at hc
    rcases List.mem_append.mp hc with h2 | h2
    · rcases (by simpa [pyStr] using h2 : c = 0x55 ∨ c = 0x2B) with rfl | rfl
      · exact Or.inl rfl
      · exact Or.inr (Or.inl rfl)
    · exact Or.inr (Or.inr (Or.inr (natToHex_all_hex s c h2)))
  · rw [if_neg h] at hc
    rcases List.mem_append.mp hc with h2 | h2
    · rcases List.mem_append.mp h2 with h3 | h3
      · rcases (by simpa [pyStr] using h3 : c = 0x55 ∨ c = 0x2B) with rfl | rfl
        · exact Or.inl rfl
        · exact Or.inr (Or.inl rfl)
      · exact Or.inr (Or.inr (Or.inr (natToHex_all_hex s c h3)))
    · rcases List.mem_cons.mp h2 with rfl | h3
      · exact Or.inr (Or.inr (Or.inl rfl))
      · exact Or.inr (Or.inr (Or.inr (natToHex_all_hex e c h3)))


theorem hexGroup_natToHex (n : Nat) (hn : n ≤ 0xFFFFFF) (tail : List Nat)
    (htail : tail = [] ∨ ∃ t2, tail = 0x2D :: t2) :
    hexGroup (natToHex n ++ tail) = natToHex n := by
  have h166 : (16 : Nat) ^ 6 = 16777216 := by norm_num
  have hlen : (natToHex n).length ≤ 6 := natToHex_length_le 6 n (by omega) (by omega)
  have hall : (natToHex n).takeWhile isHexDigitChar = natToHex n :=
    takeWhile_all _ (natToHex_all_hex n)
  have htw : (natToHex n ++ tail).takeWhile isHexDigitChar = natToHex n := by
    rw [List.takeWhile_append, if_pos (by rw [hall])]
    rcases htail with rfl | ⟨t2, rfl⟩
    · simp
    · rw [List.takeWhile_cons, if_neg (by decide)]
      simp
  unfold hexGroup
  rw [htw, List.take_of_length_le hlen]

theorem matchToken_cons (c1 c2 : Nat) (rest : List Nat) :
    matchToken (c1 :: c2 :: rest) =
      if c1 = 0x55 ∧ c2 = 0x2B then
        if (hexGroup rest).isEmpty then none
        else
          match rest.drop (hexGroup rest).length with
          | c3 :: rest3 =>
            if c3 = 0x2D then
              if (hexGroup rest3).isEmpty then some (hexToNat (hexGroup rest), none)
              else some (hexToNat (hexGroup rest), some (hexToNat (hexGroup rest3)))
            else some (hexToNat (hexGroup rest), none)
          | [] => some (hexToNat (hexGroup rest), none)
      else none := rfl

theorem matchToken_single (s : Nat) (hs : s ≤ 0xFFFFFF) :
    matchToken (pyStr "U+" ++ natToHex s) = some (s, none) := by
  have hg : hexGroup (natToHex s) = natToHex s := by
    have := hexGroup_natToHex s hs [] (Or.inl rfl)
    simpa using this
  rw [show pyStr "U+" ++ natToHex s = 0x55 :: 0x2B :: natToHex s from rfl,
    matchToken_cons, if_pos ⟨rfl, rfl⟩, hg,
    show (natToHex s).isEmpty = false by
      cases h : natToHex s with
      | nil => exact absurd h (natToHex_ne_nil s)
      | cons a t => rfl]
  rw [List.drop_length]
  simp [hexToNat_natToHex]

theorem matchToken_pair (s e : Nat) (hs : s ≤ 0xFFFFFF) (he : e ≤ 0xFFFFFF) :
    matchToken (pyStr "U+" ++ natToHex s ++ 0x2D :: natToHex e) = some (s, some e) := by
  have hg : hexGroup (natToHex s ++ 0x2D :: natToHex e) = natToHex s :=
    hexGroup_natToHex s hs (0x2D :: natToHex e) (Or.inr ⟨natToHex e, rfl⟩)
  have hg2 : hexGroup (natToHex e) = natToHex e := by
    have := hexGroup_natToHex e he [] (Or.inl rfl)
    simpa using this
  rw [show pyStr "U+" ++ natToHex s ++ 0x2D :: natToHex e =
      0x55 :: 0x2B :: (natToHex s ++ 0x2D :: natToHex e) from rfl,
    matchToken_cons, if_pos ⟨rfl, rfl⟩, hg,
    show (natToHex s).isEmpty = false by
      cases h : natToHex s with
      | nil => exact absurd h (natToHex_ne_nil s)
      | cons a t => rfl]
  rw [List.drop_left]
  simp only [if_pos rfl, hg2]
  rw [show (natToHex e).isEmpty = false by
      cases h : natToHex e with
      | nil => exact absurd h (natToHex_ne_nil e)
      | cons a t => rfl]
  simp [hexToNat_natToHex]

theorem tokenStep_renderRange (acc : List Nat) (s e : Nat) (hse : s ≤ e)
    (he : e ≤ 0xFFFFFF) :
    tokenStep acc (renderRange s e) = addRange acc s e := by
  have hstrip : pyStrip (renderRange s e) = renderRange s e :=
    pyStrip_id _ (fun c hc => (isTokenChar_props c (renderRange_chars s e c hc)).2.2.2)
  obtain ⟨tl, htl⟩ := renderRange_shape s e
  have hne : (renderRange s e).isEmpty = false := by rw [htl]; rfl
  rw [tokenStep, hstrip, hne]
  simp only [Bool.false_eq_true, if_false]
  by_cases hcase : s = e
  · subst hcase
    rw [show renderRange s s = pyStr "U+" ++ natToHex s by rw [renderRange, if_pos rfl],
      matchToken_single s (by omega)]
    show addRange acc (min s (Option.getD none s)) (max s (Option.getD none s)) =
      addRange acc s s
    simp
  · rw [show renderRange s e = pyStr "U+" ++ natToHex s ++ 0x2D :: natToHex e by
        rw [renderRange, if_neg hcase],
      matchToken_pair s e (by omega) he]
    show addRange acc (min s (Option.getD (some e) s)) (max s (Option.getD (some e) s)) =
      addRange acc s e
    simp [Option.getD, Nat.min_eq_left hse, Nat.max_eq_right hse]

theorem pySplit_no_sep (sep : Nat) :
    ∀ (l : List Nat), (∀ c ∈ l, c ≠ sep) → pySplit sep l = [l] := by
  intro l
  induction l with
  | nil => intro _; rfl
  | cons c rest ih =>
    intro h
    rw [pySplit, if_neg (h c (by simp)), ih (fun x hx => h x (by simp [hx]))]

theorem pySplit_append_sep (sep : Nat) :
    ∀ (t rest : List Nat), (∀ c ∈ t, c ≠ sep) →
      pySplit sep (t ++ sep :: rest) = t :: pySplit sep rest := by
  intro t
  induction t with
  | nil =>
    intro rest _
    rw [List.nil_append, pySplit, if_pos rfl]
  | cons c t' ih =>
    intro rest h
    rw [List.cons_append, pySplit, if_neg (h c (by simp)),
      ih rest (fun x hx => h x (by simp [hx]))]

theorem pySplit_joinSep (sep : Nat) :
    ∀ (ts : List (List Nat)), ts ≠ [] → (∀ t ∈ ts, ∀ c ∈ t, c ≠ sep) →
      pySplit sep (joinSep sep ts) = ts := by
  intro ts
  induction ts with
  | nil => intro h _; exact absurd rfl h
  | cons t ts' ih =>
    intro _ h
    cases ts' with
    | nil =>
      rw [show joinSep sep [t] = t from rfl]
      exact pySplit_no_sep sep t (h t (by simp))
    | cons t2 ts2 =>
      rw [show joinSep sep (t :: t2 :: ts2) = t ++ sep :: joinSep sep (t2 :: ts2) from rfl,
        pySplit_append_sep sep t _ (h t (by simp)),
        ih (by simp) (fun x hx c hc => h x (by simp [hx]) c hc)]

theorem stripCommentsAux_cons (f c : Nat) (rest : List Nat) :
    stripCommentsAux (f + 1) (c :: rest) =
      if c = 0x2F then
        match rest with
        | 0x2A :: rest2 =>
          match findCommentClose rest2 with
          | some rest3 => stripCommentsAux f rest3
          | none => c :: stripCommentsAux f rest
        | _ => c :: stripCommentsAux f rest
      else c :: stripCommentsAux f rest := rfl

theorem stripCommentsAux_id :
    ∀ (fuel : Nat) (l : List Nat), (∀ c ∈ l, c ≠ 0x2F) → stripCommentsAux fuel l = l := by
  intro fuel
  induction fuel with
  | zero =>
    intro l _
    cases l with
    | nil => rfl
    | cons c rest => rfl
  | succ f ih =>
    intro l h
    cases l with
    | nil => rfl
    | cons c rest =>
      rw [stripCommentsAux_cons, if_neg (h c (by simp)),
        ih rest (fun x hx => h x (by simp [hx]))]

theorem stripComments_id (l : List Nat) (h : ∀ c ∈ l, c ≠ 0x2F) : stripComments l = l :=
  stripCommentsAux_id l.length l h

theorem matchOuterTail_wrap (body : List Nat) (tl : List Nat) (hbody : body = 0x55 :: tl)
    (hns : ∀ c ∈ body, c ≠ 0x3B) :
    matchOuterTail (0x20 :: (body ++ [0x3B])) = some (body, []) := by
  have hsp55 : isPySpace 0x55 = false := by decide
  have hws : (0x20 :: (body ++ [0x3B])).takeWhile isPySpace = [0x20] := by
    rw [List.takeWhile_cons, if_pos (by decide), hbody, List.cons_append,
      List.takeWhile_cons, if_neg (by simp [hsp55])]
  have hdrop : (0x20 :: (body ++ [0x3B])).drop ([0x20] : List Nat).length = body ++ [0x3B] := rfl
  have hgrp : matchOuterGroup (body ++ [0x3B]) = body := by
    unfold matchOuterGroup
    rw [List.takeWhile_append,
      if_pos (by rw [takeWhile_all body (fun c hc => by simp [hns c hc])]),
      List.takeWhile_cons, if_neg (by decide)]
    simp
  have hgrpne : (matchOuterGroup (body ++ [0x3B])).isEmpty = false := by
    rw [hgrp, hbody]; rfl
  unfold matchOuterTail
  rw [hws, hdrop, hgrpne]
  simp only [Bool.false_eq_true, if_false]
  rw [hgrp]
  have hdrop2 : (body ++ [0x3B]).drop body.length = [0x3B] := List.drop_left body [0x3B]
  rw [hdrop2]
  rfl

theorem matchLiteralCI_wrap (rest : List Nat) :
    matchLiteralCI unicodeRangeLiteral (pyStr "unicode-range: " ++ rest) =
      some (0x3A :: 0x20 :: rest) := rfl

theorem matchOuterAt_wrap (body : List Nat) (tl : List Nat) (hbody : body = 0x55 :: tl)
    (hns : ∀ c ∈ body, c ≠ 0x3B) :
    matchOuterAt (pyStr "unicode-range: " ++ (body ++ [0x3B])) = some (body, []) := by
  have hdw : (0x3A :: 0x20 :: (body ++ [0x3B])).dropWhile isPySpace =
      0x3A :: 0x20 :: (body ++ [0x3B]) := by
    rw [List.dropWhile_cons, if_neg (by decide)]
  unfold matchOuterAt
  rw [matchLiteralCI_wrap]
  show (match (0x3A :: 0x20 :: (body ++ [0x3B])).dropWhile isPySpace with
    | c :: r3 => if c = 0x3A then matchOuterTail r3 else none
    | [] => none) = some (body, [])
  rw [hdw]
  show (if (0x3A : Nat) = 0x3A then matchOuterTail (0x20 :: (body ++ [0x3B])) else none) =
    some (body, [])
  rw [if_pos rfl]
  exact matchOuterTail_wrap body tl hbody hns

theorem findAllRangesAux_succ (fuel : Nat) (s : List Nat) :
    findAllRangesAux (fuel + 1) s =
      match matchOuterAt s with
      | some (grp, rest) => grp :: findAllRangesAux fuel rest
      | none =>
        match s with
        | [] => []
        | _ :: tail => findAllRangesAux fuel tail := rfl

theorem findAllRangesAux_nil (fuel : Nat) : findAllRangesAux fuel [] = [] := by
  cases fuel with
  | zero => rfl
  | succ f => rfl

theorem findAllRanges_wrap (body : List Nat) (tl : List Nat) (hbody : body = 0x55 :: tl)
    (hns : ∀ c ∈ body, c ≠ 0x3B) :
    findAllRanges (pyStr "unicode-range: " ++ (body ++ [0x3B])) = [body] := by
  unfold findAllRanges
  have hlen : (pyStr "unicode-range: " ++ (body ++ [0x3B])).length = (body.length + 15) + 1 := by
    simp [pyStr]
  rw [hlen, findAllRangesAux_succ, matchOuterAt_wrap body tl hbody hns]
  rfl

theorem specConsecRuns_mem_bounds (l : List Nat) (p : Nat × Nat)
    (hp : p ∈ specConsecRuns l) : p.1 ∈ l ∧ p.2 ∈ l := by
  have hle := specConsecRuns_le l p hp
  have hflat := specConsecRuns_flatten l
  have h1 : p.1 ∈ runExpand p := by
    unfold runExpand
    rw [List.mem_range'_1]
    omega
  have h2 : p.2 ∈ runExpand p := by
    unfold runExpand
    rw [List.mem_range'_1]
    omega
  have hmem : runExpand p ∈ (specConsecRuns l).map runExpand :=
    List.mem_map_of_mem runExpand hp
  constructor
  · rw [← hflat]
    exact List.mem_flatten.mpr ⟨runExpand p, hmem, h1⟩
  · rw [← hflat]
    exact List.mem_flatten.mpr ⟨runExpand p, hmem, h2⟩

theorem addRange_foldl :
    ∀ (rs : List (Nat × Nat)) (acc : List Nat),
      (acc ++ (rs.map runExpand).flatten).Nodup →
      rs.foldl (fun a p => addRange a p.1 p.2) acc = acc ++ (rs.map runExpand).flatten := by
  intro rs
  induction rs with
  | nil => intro acc _; simp
  | cons p ps ih =>
    intro acc hnd
    simp only [List.map_cons, List.flatten_cons] at hnd
    have hnd2 : ((acc ++ runExpand p) ++ (ps.map runExpand).flatten).Nodup := by
      rw [List.append_assoc]
      exact hnd
    have hstep : addRange acc p.1 p.2 = acc ++ runExpand p := by
      show pyDedupAppend acc (runExpand p) = acc ++ runExpand p
      refine pyDedupAppend_of_disjoint _ _ (List.nodup_range' _ _) ?_
      intro x hx hxacc
      have hdisj := (List.nodup_append.mp hnd).2.2
      exact hdisj hxacc (List.mem_append.mpr (Or.inl hx))
    rw [List.foldl_cons, hstep, ih (acc ++ runExpand p) hnd2]
    simp [List.append_assoc]

/-- **C10.** Round-trip: for every duplicate-free list of codepoints
representable in 1-6 hex digits, wrapping the output of
`codepoints_to_unicode_ranges` as `unicode-range: <joined>;` exactly as
`split_font` does and parsing it back with `parse_unicode_ranges_from_text`
reproduces the list element for element in the same order — the compression
is lossless and order-preserving even for non-ascending input. -/
theorem unicode_ranges_roundtrip (cps : List Nat) (hnd : cps.Nodup)
    (hbound : ∀ cp ∈ cps, cp ≤ 0xFFFFFF) :
    parse_unicode_ranges_from_text
      (pyStr "unicode-range: " ++ joinSep 0x2C (codepoints_to_unicode_ranges cps)
        ++ [0x3B]) = cps := by
  cases cps with
  | nil => decide
  | cons c0 rest0 =>
    rw [List.append_assoc]
    obtain ⟨e0, rs0, hruns⟩ := specConsecRuns_cons rest0 c0
    have heq := codepoints_to_unicode_ranges_eq_runs (c0 :: rest0)
    have hrunle : ∀ p ∈ specConsecRuns (c0 :: rest0), p.1 ≤ p.2 :=
      specConsecRuns_le (c0 :: rest0)
    have hrunbound : ∀ p ∈ specConsecRuns (c0 :: rest0), p.2 ≤ 0xFFFFFF := by
      intro p hp
      exact hbound p.2 (specConsecRuns_mem_bounds _ p hp).2
    have hbodychar : ∀ x ∈ joinSep 0x2C (codepoints_to_unicode_ranges (c0 :: rest0)),
        x = 0x2C ∨ isTokenChar x := by
      intro x hx
      rcases mem_joinSep _ x hx with h | ⟨t, ht, hxt⟩
      · exact Or.inl h
      · rw [heq] at ht
        obtain ⟨p, hp, rfl⟩ := List.mem_map.mp ht
        exact Or.inr (renderRange_chars p.1 p.2 x hxt)
    have hns : ∀ x ∈ joinSep 0x2C (codepoints_to_unicode_ranges (c0 :: rest0)),
        x ≠ 0x3B := by
      intro x hx
      rcases hbodychar x hx with rfl | h
      · decide
      · exact (isTokenChar_props x h).1
    have hnoslash : ∀ x ∈ joinSep 0x2C (codepoints_to_unicode_ranges (c0 :: rest0)),
        x ≠ 0x2F := by
      intro x hx
      rcases hbodychar x hx with rfl | h
      · decide
      · exact (isTokenChar_props x h).2.2.1
    have hshape : ∃ tl, joinSep 0x2C (codepoints_to_unicode_ranges (c0 :: rest0)) =
        0x55 :: tl := by
      rw [heq, hruns, List.map_cons]
      obtain ⟨more, hmore⟩ :=
        joinSep_cons 0x2C (renderRange c0 e0) (rs0.map (fun p => renderRange p.1 p.2))
      rw [hmore]
      obtain ⟨tl2, htl2⟩ := renderRange_shape c0 e0
      exact ⟨0x2B :: (tl2 ++ more), by rw [htl2]; simp⟩
    obtain ⟨tlb, htlb⟩ := hshape
    unfold parse_unicode_ranges_from_text
    rw [findAllRanges_wrap _ tlb htlb hns, List.foldl_cons, List.foldl_nil]
    unfold groupStep
    rw [stripComments_id _ hnoslash]
    have hsplit : pySplit 0x2C (joinSep 0x2C (codepoints_to_unicode_ranges (c0 :: rest0))) =
        codepoints_to_unicode_ranges (c0 :: rest0) := by
      refine pySplit_joinSep 0x2C _ ?_ ?_
      · rw [heq, hruns, List.map_cons]
        simp
      · intro t ht x hxt
        rw [heq] at ht
        obtain ⟨p, hp, rfl⟩ := List.mem_map.mp ht
        exact (isTokenChar_props x (renderRange_chars p.1 p.2 x hxt)).2.1
    rw [hsplit, heq, List.foldl_map]
    rw [List.foldl_ext _ (fun acc p => addRange acc p.1 p.2) []
      (fun acc p hp => tokenStep_renderRange acc p.1 p.2 (hrunle p hp) (hrunbound p hp))]
    have hflat := specConsecRuns_flatten (c0 :: rest0)
    rw [addRange_foldl (specConsecRuns (c0 :: rest0)) [] (by rw [List.nil_append, hflat]; exact hnd)]
    rw [List.nil_append, hflat]

/-- Witness for C10 at the spec's example codepoint list. -/
theorem unicode_ranges_roundtrip_witness :
    parse_unicode_ranges_from_text
      (pyStr "unicode-range: " ++
        joinSep 0x2C (codepoints_to_unicode_ranges [0x4E00, 0x4E01, 0x4E02, 0x4E05])
        ++ [0x3B]) = [0x4E00, 0x4E01, 0x4E02, 0x4E05] :=
  unicode_ranges_roundtrip [0x4E00, 0x4E01, 0x4E02, 0x4E05] (by decide) (by decide)
